import Mathlib

/-!
# Verification of the Caliper `JsonSplitFormatter` core

Shallow embedding of `src/reader/JsonSplitFormatter.cpp`:

* the `Hierarchy` path interner (`Hierarchy::get_id`, `Hierarchy::write_nodes`),
* query-configuration resolution (`JsonSplitFormatterImpl::configure`),
* column-model construction (`JsonSplitFormatterImpl::init_columns`),
* row/cell rendering (`write_hierarchy_entry`, `write_immediate_entry`),
* record buffering (`process_record`) and the flush replay loop,
* global-attribute merging (`write_globals`).

Machine pointers of the C++ intrusive trees are modelled as indices into an
append-only node list; the synthetic root (id `CALI_INV_ID`) is modelled as the
position `Option.none`, so a returned id is `Option Nat` with `none` playing the
role of the `CALI_INV_ID` sentinel.
-/

namespace Caliper

/-! ## Generic emitting fold

Both the flush loops and repeated interner calls have the shape
"for each x: emit one output, update the state".  `emitFold` captures that loop
shape once so that order/length facts can be proved uniformly. -/

def emitFold {α β σ : Type} (g : σ → α → β × σ) (xs : List α) (acc : List β × σ) : List β × σ :=
  xs.foldl (fun p x => (p.1 ++ [(g p.2 x).1], (g p.2 x).2)) acc

theorem emitFold_nil {α β σ : Type} (g : σ → α → β × σ) (acc : List β × σ) :
    emitFold g [] acc = acc := rfl

theorem emitFold_cons {α β σ : Type} (g : σ → α → β × σ) (x : α) (xs : List α)
    (l : List β) (s : σ) :
    emitFold g (x :: xs) (l, s) = emitFold g xs (l ++ [(g s x).1], (g s x).2) := rfl

theorem emitFold_acc {α β σ : Type} (g : σ → α → β × σ) (xs : List α) (l : List β) (s : σ) :
    (emitFold g xs (l, s)).1 = l ++ (emitFold g xs ([], s)).1 ∧
    (emitFold g xs (l, s)).2 = (emitFold g xs ([], s)).2 := by
  induction xs generalizing l s with
  | nil => simp [emitFold_nil]
  | cons x xs ih =>
    rw [emitFold_cons, emitFold_cons, List.nil_append]
    obtain ⟨h1, h2⟩ := ih (l ++ [(g s x).1]) (g s x).2
    obtain ⟨h1', h2'⟩ := ih ([(g s x).1]) (g s x).2
    refine ⟨?_, by rw [h2, h2']⟩
    rw [h1, h1']
    simp

theorem emitFold_length {α β σ : Type} (g : σ → α → β × σ) (xs : List α) (s : σ) :
    (emitFold g xs ([], s)).1.length = xs.length := by
  induction xs generalizing s with
  | nil => simp [emitFold_nil]
  | cons x xs ih =>
    rw [emitFold_cons, List.nil_append]
    obtain ⟨h1, -⟩ := emitFold_acc g xs ([(g s x).1]) (g s x).2
    simp [h1, ih]

theorem emitFold_getElem {α β σ : Type} (g : σ → α → β × σ) (xs : List α) (s : σ)
    (k : Nat) (hk : k < xs.length) :
    (emitFold g xs ([], s)).1[k]? =
      some ((g (emitFold g (xs.take k) ([], s)).2 (xs.get ⟨k, hk⟩)).1) := by
  induction xs generalizing s k with
  | nil => exact absurd hk (by simp)
  | cons x xs ih =>
    rw [emitFold_cons, List.nil_append]
    obtain ⟨h1, h2⟩ := emitFold_acc g xs ([(g s x).1]) (g s x).2
    cases k with
    | zero =>
      rw [h1]
      simp [emitFold_nil]
    | succ k =>
      have hk' : k < xs.length := by simpa using hk
      have hrec := ih (g s x).2 k hk'
      rw [h1]
      have hidx : ([(g s x).1] ++ (emitFold g xs ([], (g s x).2)).1)[k + 1]? =
          (emitFold g xs ([], (g s x).2)).1[k]? := by
        rw [List.getElem?_append_right (by simp)]
        simp
      rw [hidx, hrec]
      have hst : (emitFold g (List.take (k + 1) (x :: xs)) ([], s)).2
          = (emitFold g (List.take k xs) ([], (g s x).2)).2 := by
        rw [List.take_succ_cons, emitFold_cons, List.nil_append]
        obtain ⟨-, h2'⟩ := emitFold_acc g (List.take k xs) ([(g s x).1]) (g s x).2
        exact h2'
      rw [hst]
      simp

theorem emitFold_snd_append {α β σ : Type} (g : σ → α → β × σ) (xs ys : List α)
    (l : List β) (s : σ) :
    (emitFold g (xs ++ ys) (l, s)).2 = (emitFold g ys ([], (emitFold g xs (l, s)).2)).2 := by
  induction xs generalizing l s with
  | nil =>
    simp only [List.nil_append, emitFold_nil]
    obtain ⟨-, h2⟩ := emitFold_acc g ys l s
    exact h2
  | cons x xs ih =>
    rw [List.cons_append, emitFold_cons, emitFold_cons]
    exact ih _ _

/-! ## The path interner (`Hierarchy`)

`HierarchyNode` carries the id assigned at creation, the label, the owning
column title and the parent link.  The node arena `m_nodes` is the list; a
parent link `none` designates the synthetic root. -/

structure HierarchyNode where
  m_id : Nat
  m_label : String
  m_column : String
  parentIdx : Option Nat
deriving DecidableEq, Repr

/-- The interner state: the owned node list `m_nodes` (append-only). -/
abbrev HState := List HierarchyNode

/-- The child-search scan of `Hierarchy::get_id`: find the (index of the) child
of the node at position `pos` carrying label `label`.  In the C++ code this
walks `parent->first_child()` / `next_sibling()`; in the arena model the
children of `pos` are exactly the nodes whose parent link is `pos`. -/
def findChild : HState → Option Nat → String → Option Nat
  | [], _, _ => none
  | n :: rest, pos, label =>
    if n.parentIdx = pos ∧ n.m_label = label then some 0
    else (findChild rest pos label).map (· + 1)

/-- One loop iteration of `Hierarchy::get_id`: descend into the child with the
entry's label, creating it (id = `m_nodes.size()`, parent = current node,
appended to the arena) when the scan fails. -/
def getIdStep (column : String) (p : Option Nat × HState) (label : String) :
    Option Nat × HState :=
  match findChild p.2 p.1 label with
  | some i => (some i, p.2)
  | none => (some p.2.length, p.2 ++ [⟨p.2.length, label, column, p.1⟩])

/-- `Hierarchy::get_id`: walk/extend the trie from the synthetic root along the
path's labels; the result is the final node's id (`none` = `CALI_INV_ID`). -/
def get_id (st : HState) (vec : List String) (column : String) : Option Nat × HState :=
  vec.foldl (getIdStep column) (none, st)

theorem findChild_some {st : HState} {pos : Option Nat} {label : String} {i : Nat}
    (h : findChild st pos label = some i) :
    ∃ n, st[i]? = some n ∧ n.parentIdx = pos ∧ n.m_label = label := by
  induction st generalizing i with
  | nil => simp [findChild] at h
  | cons n rest ih =>
    by_cases hc : n.parentIdx = pos ∧ n.m_label = label
    · simp only [findChild, if_pos hc] at h
      cases h
      exact ⟨n, by simp, hc⟩
    · simp only [findChild, if_neg hc] at h
      obtain ⟨j, hj, rfl⟩ := Option.map_eq_some'.mp h
      obtain ⟨m, hm, hmp⟩ := ih hj
      exact ⟨m, by simpa using hm, hmp⟩

theorem findChild_none {st : HState} {pos : Option Nat} {label : String}
    (h : findChild st pos label = none) :
    ∀ n ∈ st, ¬(n.parentIdx = pos ∧ n.m_label = label) := by
  induction st with
  | nil => simp
  | cons n rest ih =>
    by_cases hc : n.parentIdx = pos ∧ n.m_label = label
    · simp [findChild, if_pos hc] at h
    · simp only [findChild, if_neg hc, Option.map_eq_none'] at h
      intro m hm
      rcases List.mem_cons.mp hm with rfl | hmem
      · exact hc
      · exact ih h m hmem

theorem findChild_lt {st : HState} {pos : Option Nat} {label : String} {i : Nat}
    (h : findChild st pos label = some i) : i < st.length := by
  obtain ⟨n, hn, -⟩ := findChild_some h
  exact (List.getElem?_eq_some.mp hn).1

/-- Structural invariant of the node arena: ids equal arena positions, parent
links point strictly downwards, and no two nodes share (parent, label) — the
trie property maintained because a node is only created after the child scan
found no node with that parent and label. -/
structure Wf (st : HState) : Prop where
  idx : ∀ (i : Nat) (n : HierarchyNode), st[i]? = some n → n.m_id = i
  parent_lt : ∀ (i : Nat) (n : HierarchyNode) (j : Nat),
    st[i]? = some n → n.parentIdx = some j → j < i
  uniq : ∀ (i j : Nat) (n m : HierarchyNode), st[i]? = some n → st[j]? = some m →
    n.parentIdx = m.parentIdx → n.m_label = m.m_label → i = j

/-- A position (pointer into the arena, or the synthetic root) is valid. -/
def PosOk (st : HState) (pos : Option Nat) : Prop :=
  ∀ j, pos = some j → j < st.length

theorem wf_nil : Wf [] := by
  constructor <;> intro i <;> simp

theorem posOk_none (st : HState) : PosOk st none := by
  intro j h
  cases h

theorem posOk_mono {st : HState} {pos : Option Nat} (ex : HState) (h : PosOk st pos) :
    PosOk (st ++ ex) pos := by
  intro j hj
  have := h j hj
  simp only [List.length_append]
  omega

theorem getElem?_append_left' {st ex : HState} {i : Nat} (h : i < st.length) :
    (st ++ ex)[i]? = st[i]? :=
  List.getElem?_append_left h

/-- The root-first label sequence read off by walking parent links upward from
a position; `fuel` bounds the walk (parents strictly decrease, so any fuel
above the index is enough). -/
def trace (st : HState) : Nat → Option Nat → List String
  | _, none => []
  | 0, some _ => []
  | fuel + 1, some i =>
    match st[i]? with
    | none => []
    | some n => trace st fuel n.parentIdx ++ [n.m_label]

/-- The canonical trace: fuel = arena size. -/
def traceAt (st : HState) (pos : Option Nat) : List String :=
  trace st st.length pos

theorem trace_fuel_irrel {st : HState} (hwf : Wf st) :
    ∀ i fuel₁ fuel₂, i < fuel₁ → i < fuel₂ →
      trace st fuel₁ (some i) = trace st fuel₂ (some i) := by
  intro i
  induction i using Nat.strong_induction_on with
  | _ i ih =>
    intro fuel₁ fuel₂ h₁ h₂
    obtain ⟨f₁, rfl⟩ : ∃ f, fuel₁ = f + 1 := ⟨fuel₁ - 1, by omega⟩
    obtain ⟨f₂, rfl⟩ : ∃ f, fuel₂ = f + 1 := ⟨fuel₂ - 1, by omega⟩
    cases hn : st[i]? with
    | none => simp [trace, hn]
    | some n =>
      cases hp : n.parentIdx with
      | none => simp [trace, hn, hp]
      | some j =>
        have hj : j < i := hwf.parent_lt i n j hn hp
        simp only [trace, hn, hp]
        rw [ih j hj f₁ f₂ (by omega) (by omega)]

theorem trace_append_ext {st : HState} (ex : HState) (hwf : Wf st) :
    ∀ fuel pos, PosOk st pos → trace (st ++ ex) fuel pos = trace st fuel pos := by
  intro fuel
  induction fuel with
  | zero =>
    intro pos _
    cases pos <;> simp [trace]
  | succ fuel ih =>
    intro pos hpos
    cases pos with
    | none => simp [trace]
    | some i =>
      have hi : i < st.length := hpos i rfl
      cases hn : st[i]? with
      | none => simp [trace, getElem?_append_left' hi, hn]
      | some n =>
        cases hp : n.parentIdx with
        | none => simp [trace, getElem?_append_left' hi, hn, hp]
        | some j =>
          have hj : j < i := hwf.parent_lt i n j hn hp
          simp only [trace, getElem?_append_left' hi, hn, hp]
          rw [ih (some j) (by intro k hk; cases hk; omega)]

theorem traceAt_ext {st ex : HState} (hwf : Wf st)
    {pos : Option Nat} (hpos : PosOk st pos) :
    traceAt (st ++ ex) pos = traceAt st pos := by
  cases pos with
  | none => simp [traceAt, trace]
  | some i =>
    have hi : i < st.length := hpos i rfl
    unfold traceAt
    rw [trace_append_ext ex hwf _ _ hpos]
    have h1 : trace st (st ++ ex).length (some i) = trace st st.length (some i) :=
      trace_fuel_irrel hwf i _ _ (by simp only [List.length_append]; omega) hi
    exact h1

theorem traceAt_ne_nil {st : HState} {i : Nat} (hi : i < st.length) :
    traceAt st (some i) ≠ [] := by
  unfold traceAt
  obtain ⟨f, hf⟩ : ∃ f, st.length = f + 1 := ⟨st.length - 1, by omega⟩
  rw [hf]
  simp only [trace]
  cases hn : st[i]? with
  | none =>
    exact absurd hn (by simp [List.getElem?_eq_getElem hi])
  | some n => simp

/-- Within one well-formed arena, the root-first trace determines the node:
two nodes with equal traces are the same node. -/
theorem traceAt_inj {st : HState} (hwf : Wf st) :
    ∀ i j, i < st.length → j < st.length →
      traceAt st (some i) = traceAt st (some j) → i = j := by
  intro i
  induction i using Nat.strong_induction_on with
  | _ i ih =>
    intro j hi hj heq
    obtain ⟨f, hf⟩ : ∃ f, st.length = f + 1 := ⟨st.length - 1, by omega⟩
    have hni : st[i]? = some (st.get ⟨i, hi⟩) := by
      simp [List.getElem?_eq_getElem hi]
    have hnj : st[j]? = some (st.get ⟨j, hj⟩) := by
      simp [List.getElem?_eq_getElem hj]
    set n := st.get ⟨i, hi⟩ with hn
    set m := st.get ⟨j, hj⟩ with hm
    unfold traceAt at heq
    rw [hf] at heq
    simp only [trace, hni, hnj] at heq
    have hinj := List.append_inj' heq (by simp)
    have htail : trace st f n.parentIdx = trace st f m.parentIdx := hinj.1
    have hlab : n.m_label = m.m_label := by simpa using hinj.2
    have trace_f_eq : ∀ (q : Nat), q < f →
        trace st f (some q) = traceAt st (some q) := by
      intro q hq
      unfold traceAt
      exact trace_fuel_irrel hwf q f st.length hq (by omega)
    cases hpi : n.parentIdx with
    | none =>
      cases hpj : m.parentIdx with
      | none => exact hwf.uniq i j n m hni hnj (hpi.trans hpj.symm) hlab
      | some q =>
        rw [hpi, hpj] at htail
        have hq : q < j := hwf.parent_lt j m q hnj hpj
        have hql : q < st.length := Nat.lt_trans hq hj
        have hne : trace st f (some q) ≠ [] := by
          rw [trace_f_eq q (by omega)]
          exact traceAt_ne_nil hql
        exact absurd (by simpa [trace] using htail.symm) hne
    | some p =>
      have hp : p < i := hwf.parent_lt i n p hni hpi
      have hpl : p < st.length := Nat.lt_trans hp hi
      cases hpj : m.parentIdx with
      | none =>
        rw [hpi, hpj] at htail
        have hne : trace st f (some p) ≠ [] := by
          rw [trace_f_eq p (by omega)]
          exact traceAt_ne_nil hpl
        exact absurd (by simpa [trace] using htail) hne
      | some q =>
        rw [hpi, hpj] at htail
        have hq : q < j := hwf.parent_lt j m q hnj hpj
        have hql : q < st.length := Nat.lt_trans hq hj
        have hpq : p = q := by
          apply ih p hp q hpl hql
          rw [← trace_f_eq p (by omega), ← trace_f_eq q (by omega)]
          exact htail
        exact hwf.uniq i j n m hni hnj (by rw [hpi, hpj, hpq]) hlab

theorem snoc_get {st : HState} {nd n : HierarchyNode} {i : Nat}
    (h : (st ++ [nd])[i]? = some n) : st[i]? = some n ∨ (i = st.length ∧ n = nd) := by
  rcases Nat.lt_trichotomy i st.length with hlt | heq | hgt
  · left
    rw [← getElem?_append_left' hlt]
    exact h
  · right
    subst heq
    rw [List.getElem?_concat_length] at h
    exact ⟨rfl, (Option.some.injEq _ _ ▸ h).symm⟩
  · exfalso
    have : (st ++ [nd])[i]? = none := by
      apply List.getElem?_eq_none
      simp only [List.length_append, List.length_singleton]
      omega
    rw [this] at h
    cases h

theorem mem_of_getElem? {st : HState} {n : HierarchyNode} {i : Nat}
    (h : st[i]? = some n) : n ∈ st := by
  obtain ⟨hlt, rfl⟩ := List.getElem?_eq_some.mp h
  exact List.getElem_mem hlt

/-- One `get_id` loop iteration preserves the arena invariant, only appends,
always lands on a real node, and extends the walked root-first label sequence
by the processed label. -/
theorem getIdStep_spec (c : String) {st : HState} {pos : Option Nat} (label : String)
    (hwf : Wf st) (hpos : PosOk st pos) :
    ∃ ex, (getIdStep c (pos, st) label).2 = st ++ ex ∧
      Wf (getIdStep c (pos, st) label).2 ∧
      PosOk (getIdStep c (pos, st) label).2 (getIdStep c (pos, st) label).1 ∧
      (∃ i, (getIdStep c (pos, st) label).1 = some i) ∧
      traceAt (getIdStep c (pos, st) label).2 (getIdStep c (pos, st) label).1 =
        traceAt st pos ++ [label] := by
  cases hfc : findChild st pos label with
  | some i =>
    obtain ⟨n, hn, hnp, hnl⟩ := findChild_some hfc
    have hi : i < st.length := findChild_lt hfc
    refine ⟨[], by simp [getIdStep, hfc], by simpa [getIdStep, hfc] using hwf, ?_, ?_, ?_⟩
    · simp only [getIdStep, hfc]
      intro j hj
      cases hj
      exact hi
    · exact ⟨i, by simp [getIdStep, hfc]⟩
    · simp only [getIdStep, hfc]
      obtain ⟨f, hf⟩ : ∃ f, st.length = f + 1 := ⟨st.length - 1, by omega⟩
      unfold traceAt
      rw [hf]
      simp only [trace, hn, hnp, hnl]
      congr 1
      cases pos with
      | none => simp [trace]
      | some j =>
        have hj : j < i := hwf.parent_lt i n j hn hnp
        rw [← hf]
        exact trace_fuel_irrel hwf j f st.length (by omega) (by omega)
  | none =>
    set nd : HierarchyNode := ⟨st.length, label, c, pos⟩ with hnd
    have hres : getIdStep c (pos, st) label = (some st.length, st ++ [nd]) := by
      simp [getIdStep, hfc, hnd]
    have hnew : (st ++ [nd])[st.length]? = some nd := List.getElem?_concat_length st nd
    have hwf' : Wf (st ++ [nd]) := by
      constructor
      · intro i n hn
        rcases snoc_get hn with hold | ⟨rfl, rfl⟩
        · exact hwf.idx i n hold
        · rfl
      · intro i n j hn hp
        rcases snoc_get hn with hold | ⟨rfl, rfl⟩
        · exact hwf.parent_lt i n j hold hp
        · exact hpos j hp
      · intro i j n m hn hm hpp hll
        rcases snoc_get hn with holdn | ⟨hii, hnn⟩
        · rcases snoc_get hm with holdm | ⟨hjj, hmm⟩
          · exact hwf.uniq i j n m holdn holdm hpp hll
          · subst hmm
            exact absurd ⟨hpp, hll⟩ (findChild_none hfc n (mem_of_getElem? holdn))
        · rcases snoc_get hm with holdm | ⟨hjj, hmm⟩
          · subst hnn
            exact absurd ⟨hpp.symm, hll.symm⟩ (findChild_none hfc m (mem_of_getElem? holdm))
          · rw [hii, hjj]
    refine ⟨[nd], by rw [hres], by rw [hres]; exact hwf', ?_, ?_, ?_⟩
    · rw [hres]
      intro j hj
      cases hj
      simp
    · exact ⟨st.length, by rw [hres]⟩
    · rw [hres]
      unfold traceAt
      have hlen : (st ++ [nd]).length = st.length + 1 := by simp
      rw [hlen]
      simp only [trace, hnew]
      congr 1
      rw [trace_append_ext [nd] hwf st.length pos hpos]

/-- The `get_id` label loop: fold of `getIdStep` from any valid position. -/
theorem get_id_go (c : String) (vec : List String) :
    ∀ (st : HState) (pos : Option Nat), Wf st → PosOk st pos →
      ∃ ex, (vec.foldl (getIdStep c) (pos, st)).2 = st ++ ex ∧
        Wf (vec.foldl (getIdStep c) (pos, st)).2 ∧
        PosOk (vec.foldl (getIdStep c) (pos, st)).2 (vec.foldl (getIdStep c) (pos, st)).1 ∧
        traceAt (vec.foldl (getIdStep c) (pos, st)).2 (vec.foldl (getIdStep c) (pos, st)).1 =
          traceAt st pos ++ vec ∧
        (vec ≠ [] → ∃ i, (vec.foldl (getIdStep c) (pos, st)).1 = some i) := by
  induction vec with
  | nil =>
    intro st pos hwf hpos
    exact ⟨[], by simp, by simpa using hwf, by simpa using hpos, by simp, by simp⟩
  | cons l ls ih =>
    intro st pos hwf hpos
    have hfold : (l :: ls).foldl (getIdStep c) (pos, st)
        = ls.foldl (getIdStep c) (getIdStep c (pos, st) l) := by
      simp [List.foldl_cons]
    obtain ⟨ex₁, hex₁, hwf₁, hpos₁, ⟨i₁, hi₁⟩, htr₁⟩ := getIdStep_spec c l hwf hpos
    obtain ⟨ex₂, hex₂, hwf₂, hpos₂, htr₂, hsome₂⟩ :=
      ih (getIdStep c (pos, st) l).2 (getIdStep c (pos, st) l).1 hwf₁ hpos₁
    rw [hfold]
    have hpair : getIdStep c (pos, st) l
        = ((getIdStep c (pos, st) l).1, (getIdStep c (pos, st) l).2) := rfl
    rw [hpair]
    refine ⟨ex₁ ++ ex₂, by rw [hex₂, hex₁, List.append_assoc], hwf₂, hpos₂, ?_, ?_⟩
    · rw [htr₂, htr₁]
      simp
    · intro _
      cases hls : ls with
      | nil =>
        subst hls
        exact ⟨i₁, by simpa using hi₁⟩
      | cons a as =>
        subst hls
        exact hsome₂ (by simp)

/-- Functional specification of `Hierarchy::get_id`: the arena only grows and
stays well-formed; an empty path returns the sentinel and leaves the arena
untouched; a non-empty path returns the id of a node whose root-first label
sequence is exactly the path. -/
theorem get_id_spec (st : HState) (vec : List String) (c : String) (hwf : Wf st) :
    (∃ ex, (get_id st vec c).2 = st ++ ex) ∧
    Wf (get_id st vec c).2 ∧
    (vec = [] → get_id st vec c = (none, st)) ∧
    (vec ≠ [] → ∃ i, (get_id st vec c).1 = some i ∧ i < (get_id st vec c).2.length ∧
      traceAt (get_id st vec c).2 (some i) = vec) := by
  simp only [get_id]
  obtain ⟨ex, hex, hwf', hpos', htr', hsome'⟩ := get_id_go c vec st none hwf (posOk_none st)
  refine ⟨⟨ex, hex⟩, hwf', ?_, ?_⟩
  · rintro rfl
    rfl
  · intro hne
    obtain ⟨i, hi⟩ := hsome' hne
    refine ⟨i, hi, hpos' i hi, ?_⟩
    rw [← hi, htr']
    simp [traceAt, trace]

/-- Arena states reachable over the life of one interner instance: the empty
arena, extended by arbitrary `get_id` calls. -/
inductive Reachable : HState → Prop where
  | init : Reachable []
  | step (st : HState) (vec : List String) (col : String) :
      Reachable st → Reachable (get_id st vec col).2

theorem reachable_wf {st : HState} (h : Reachable st) : Wf st := by
  induction h with
  | init => exact wf_nil
  | step st vec col _ ih => exact (get_id_spec st vec col ih).2.1

/-- One `resolve` call of a whole interner history. -/
def runCall (st : HState) (call : List String × String) : Option Nat × HState :=
  get_id st call.1 call.2

/-- A whole interner history: the results of a sequence of `resolve` calls
performed on one freshly created `Hierarchy`, together with the final arena. -/
def runAll (calls : List (List String × String)) : List (Option Nat) × HState :=
  emitFold runCall calls ([], [])

theorem emitFold_runCall_wf (calls : List (List String × String)) :
    ∀ (st : HState), Wf st →
      Wf (emitFold runCall calls ([], st)).2 ∧
      ∃ ex, (emitFold runCall calls ([], st)).2 = st ++ ex := by
  induction calls with
  | nil =>
    intro st hwf
    exact ⟨by simpa [emitFold_nil] using hwf, [], by simp [emitFold_nil]⟩
  | cons c cs ih =>
    intro st hwf
    rw [emitFold_cons, List.nil_append]
    obtain ⟨-, h2⟩ := emitFold_acc runCall cs ([(runCall st c).1]) (runCall st c).2
    rw [h2]
    obtain ⟨ex₁, hex₁⟩ := (get_id_spec st c.1 c.2 hwf).1
    have hwf₁ : Wf (runCall st c).2 := (get_id_spec st c.1 c.2 hwf).2.1
    obtain ⟨hwfF, ex₂, hex₂⟩ := ih (runCall st c).2 hwf₁
    refine ⟨hwfF, ex₁ ++ ex₂, ?_⟩
    rw [hex₂]
    show (get_id st c.1 c.2).2 ++ ex₂ = st ++ (ex₁ ++ ex₂)
    rw [hex₁, List.append_assoc]

theorem runAll_wf (calls : List (List String × String)) : Wf (runAll calls).2 :=
  (emitFold_runCall_wf calls [] wf_nil).1

/-- Characterization of each result of an interner history: the `k`-th call
returns the sentinel exactly for an empty label sequence, and otherwise the id
of the unique final-arena node whose root-first trace is the call's label
sequence. -/
theorem runAll_result (calls : List (List String × String)) (k : Nat)
    (hk : k < calls.length) :
    ∃ r, (runAll calls).1[k]? = some r ∧
      ((calls.get ⟨k, hk⟩).1 = [] → r = none) ∧
      ((calls.get ⟨k, hk⟩).1 ≠ [] → ∃ i, r = some i ∧ i < (runAll calls).2.length ∧
        traceAt (runAll calls).2 (some i) = (calls.get ⟨k, hk⟩).1) := by
  have hsplit : calls = calls.take k ++ calls.drop k := (List.take_append_drop k calls).symm
  have hdrop : calls.drop k = calls.get ⟨k, hk⟩ :: calls.drop (k + 1) :=
    List.drop_eq_getElem_cons hk
  set mid : HState := (emitFold runCall (calls.take k) ([], [])).2 with hmid
  have hmidwf : Wf mid := (emitFold_runCall_wf (calls.take k) [] wf_nil).1
  set call : List String × String := calls.get ⟨k, hk⟩ with hcall
  -- the k-th result is the k-th call applied at the intermediate state
  have hres : (runAll calls).1[k]? = some ((runCall mid call).1) := by
    unfold runAll
    rw [emitFold_getElem runCall calls [] k hk]
  -- the final state extends the state right after the k-th call
  have hpostwf : Wf (runCall mid call).2 := (get_id_spec mid call.1 call.2 hmidwf).2.1
  have hfin : ∃ ex, (runAll calls).2 = (runCall mid call).2 ++ ex := by
    unfold runAll
    rw [hsplit]
    have h1 := emitFold_snd_append runCall (calls.take k) (calls.drop k) [] []
    rw [h1, hdrop]
    rw [emitFold_cons, List.nil_append]
    obtain ⟨-, h2⟩ := emitFold_acc runCall (calls.drop (k + 1))
      ([(runCall mid call).1]) (runCall mid call).2
    rw [h2]
    exact (emitFold_runCall_wf (calls.drop (k + 1)) (runCall mid call).2 hpostwf).2
  obtain ⟨ex, hex⟩ := hfin
  have hex' : (runAll calls).2 = (get_id mid call.1 call.2).2 ++ ex := hex
  have hpostwf' : Wf (get_id mid call.1 call.2).2 := hpostwf
  refine ⟨(runCall mid call).1, hres, ?_, ?_⟩
  · intro hnil
    have := (get_id_spec mid call.1 call.2 hmidwf).2.2.1 hnil
    rw [show runCall mid call = get_id mid call.1 call.2 from rfl, this]
  · intro hne
    obtain ⟨i, hi, hlt, htr⟩ := (get_id_spec mid call.1 call.2 hmidwf).2.2.2 hne
    refine ⟨i, hi, ?_, ?_⟩
    · rw [hex']
      simp only [List.length_append]
      omega
    · rw [hex']
      rw [traceAt_ext hpostwf' (by intro j hj; cases hj; exact hlt)]
      exact htr

/-- **C1 (amended).**  Over the life of one interner, `resolve`
(`Hierarchy::get_id`) is a function of the label sequence alone: the results of
any two calls are equal iff their label sequences are equal — regardless of the
column arguments, which do not participate in path identity. -/
theorem get_id_path_identity (calls : List (List String × String)) (k m : Nat)
    (hk : k < calls.length) (hm : m < calls.length) :
    (runAll calls).1[k]? = (runAll calls).1[m]? ↔
      (calls.get ⟨k, hk⟩).1 = (calls.get ⟨m, hm⟩).1 := by
  obtain ⟨rk, hrk, hknil, hkne⟩ := runAll_result calls k hk
  obtain ⟨rm, hrm, hmnil, hmne⟩ := runAll_result calls m hm
  rw [hrk, hrm]
  constructor
  · intro heq
    have hreq : rk = rm := by simpa using heq
    by_cases hck : (calls.get ⟨k, hk⟩).1 = []
    · by_cases hcm : (calls.get ⟨m, hm⟩).1 = []
      · rw [hck, hcm]
      · obtain ⟨i, hi, -, -⟩ := hmne hcm
        rw [hknil hck, hi] at hreq
        cases hreq
    · by_cases hcm : (calls.get ⟨m, hm⟩).1 = []
      · obtain ⟨i, hi, -, -⟩ := hkne hck
        rw [hmnil hcm, hi] at hreq
        cases hreq
      · obtain ⟨i, hi, hilt, hitr⟩ := hkne hck
        obtain ⟨j, hj, hjlt, hjtr⟩ := hmne hcm
        rw [hi, hj] at hreq
        cases hreq
        rw [← hitr, ← hjtr]
  · intro heq
    by_cases hck : (calls.get ⟨k, hk⟩).1 = []
    · rw [hknil hck, hmnil (heq ▸ hck)]
    · obtain ⟨i, hi, hilt, hitr⟩ := hkne hck
      obtain ⟨j, hj, hjlt, hjtr⟩ := hmne (fun hc => hck (heq.trans hc))
      have hij : i = j := by
        apply traceAt_inj (runAll_wf calls) i j hilt hjlt
        rw [hitr, hjtr, heq]
      rw [hi, hj, hij]

/-- Witness for C1 (amended): on a concrete fresh interner, `["main","foo"]`
and `["main","bar"]` resolve to distinct ids. -/
theorem get_id_path_identity_witness :
    (runAll [(["main", "foo"], "path"), (["main", "bar"], "path")]).1[0]? ≠
      (runAll [(["main", "foo"], "path"), (["main", "bar"], "path")]).1[1]? := by
  intro h
  have h2 := (get_id_path_identity
    [(["main", "foo"], "path"), (["main", "bar"], "path")] 0 1
    (by decide) (by decide)).mp h
  simp at h2

/-- **C1 (counterexample to the claim as stated).**  Two calls whose paths are
distinct by the claim's notion of path identity — equal labels but different
columns — return the *same* id: the column does not separate paths. -/
theorem get_id_column_not_in_identity :
    (runAll [(["a"], "c1"), (["a"], "c2")]).1 = [some 0, some 0] ∧
      ("c1" : String) ≠ "c2" := by
  constructor
  · rfl
  · decide

/-- **C5.**  For every node of a reachable arena other than the synthetic root
(nodes whose parent is the root carry parent link `none`), the parent was
created before the node: `parent_id < node_id`. -/
theorem hierarchy_parent_lt {st : HState} (h : Reachable st) (i j : Nat)
    (n : HierarchyNode) (hn : st[i]? = some n) (hp : n.parentIdx = some j) :
    j < n.m_id := by
  have hwf := reachable_wf h
  have := hwf.parent_lt i n j hn hp
  rw [hwf.idx i n hn]
  exact this

/-- Witness for C5 on the concrete arena from interning `["main","foo"]`. -/
theorem hierarchy_parent_lt_witness : (0 : Nat) < 1 := by
  have hr : Reachable (get_id [] ["main", "foo"] "path").2 :=
    Reachable.step [] ["main", "foo"] "path" Reachable.init
  have h := hierarchy_parent_lt hr 1 0 ⟨1, "foo", "path", some 0⟩ (by rfl) (by rfl)
  exact h

/-- `Hierarchy::write_nodes`: the exported dictionary, one entry per node in
creation (arena) order — label, column, and the parent's id when the parent is
not the synthetic root. -/
def write_nodes (st : HState) : List (String × String × Option Nat) :=
  st.map (fun n => (n.m_label, n.m_column,
    n.parentIdx.bind (fun j => (st[j]?).map (fun p => p.m_id))))

/-- **C10.**  In every reachable arena, ids are consecutive integers assigned
in creation order — node `k` of the arena has id `k` — so the dictionary
emitted by `write_nodes` lists each node at the index equal to its id, and
every emitted parent reference is a valid strictly earlier index. -/
theorem write_nodes_ids_consecutive {st : HState} (h : Reachable st) :
    (write_nodes st).length = st.length ∧
    (∀ (k : Nat) (n : HierarchyNode), st[k]? = some n → n.m_id = k) ∧
    (∀ (k : Nat) (e : String × String × Option Nat), (write_nodes st)[k]? = some e →
      ∀ (p : Nat), e.2.2 = some p → p < k ∧ p < st.length) := by
  have hwf := reachable_wf h
  refine ⟨by simp [write_nodes], hwf.idx, ?_⟩
  intro k e he p hp
  unfold write_nodes at he
  rw [List.getElem?_map] at he
  obtain ⟨n, hn, hfn⟩ := Option.map_eq_some'.mp he
  rw [← hfn] at hp
  simp only at hp
  obtain ⟨j, hj, hjp⟩ := Option.bind_eq_some.mp hp
  obtain ⟨pn, hpn, hpid⟩ := Option.map_eq_some'.mp hjp
  have hjk : j < k := hwf.parent_lt k n j hn hj
  have hjlen : j < st.length := (List.getElem?_eq_some.mp hpn).1
  have : pn.m_id = j := hwf.idx j pn hpn
  omega

/-- Witness for C10 on the arena from interning `["main","foo"]` then
`["main","bar"]` (the spec's Scenario A dictionary). -/
theorem write_nodes_ids_consecutive_witness :
    (write_nodes (get_id (get_id [] ["main", "foo"] "path").2 ["main", "bar"] "path").2).length
      = 3 := by
  have hr : Reachable (get_id (get_id [] ["main", "foo"] "path").2 ["main", "bar"] "path").2 :=
    Reachable.step _ ["main", "bar"] "path"
      (Reachable.step [] ["main", "foo"] "path" Reachable.init)
  have h := (write_nodes_ids_consecutive hr).1
  rw [h]
  rfl

/-! ## External data model

Attributes, the external context-tree nodes, and record entries are owned by
the metadata store (`CaliperMetadataAccessInterface`, `Node`, `Entry`); the
formatter only reads them.  An external node is modelled by its attribute id,
its textual value (`node->data().to_string()`) and a parent index (`none`
standing for "no parent / the id-`CALI_INV_ID` sentinel root", where the
upward walks stop). -/

inductive CaliType where
  | inv
  | usr
  | int
  | uint
  | string
  | addr
  | double
  | bool
  | typeKind
  | ptr
deriving DecidableEq, Repr

structure Attribute where
  id : Nat
  name : String
  typ : CaliType
  is_hidden : Bool
  is_global : Bool
  is_nested : Bool
  store_as_value : Bool
deriving DecidableEq, Repr

structure ExtNode where
  attr : Nat
  data : String
  parent : Option Nat
deriving DecidableEq, Repr

abbrev Ext := List ExtNode

/-- One entry of a record (`cali::Entry`): attribute id, textual value, and —
for reference entries — the referenced external node (`e.node()`); `none`
models a null node reference (immediate entries). -/
structure Entry where
  attr : Nat
  value : String
  node : Option Nat
deriving DecidableEq, Repr

/-- The inner double loop of `write_hierarchy_entry`: walk one entry's node up
through ancestor links, keeping (in leaf-to-root push order) the value of every
node whose attribute is in the path column's attribute set.  `fuel` bounds the
walk; parent indices of a well-formed external tree decrease, so `ext.length`
fuel is always enough. -/
def walkUp (ext : Ext) (pathAttrIds : List Nat) : Nat → Option Nat → List String
  | _, none => []
  | 0, some _ => []
  | fuel + 1, some i =>
    match ext[i]? with
    | none => []
    | some n =>
      (if n.attr ∈ pathAttrIds then [n.data] else []) ++
        walkUp ext pathAttrIds fuel n.parent

/-- The path built by `write_hierarchy_entry`: push every kept node of every
entry's chain into one vector (entries in record order, each chain in
leaf-to-root order), then reverse the whole vector once. -/
def buildPath (ext : Ext) (pathAttrIds : List Nat) (rec : List Entry) : List String :=
  (rec.foldl (fun path e => path ++ walkUp ext pathAttrIds ext.length e.node) []).reverse

/-- `JsonSplitFormatterImpl::write_hierarchy_entry`: build the path, intern it,
and emit the id — or `null` for the `CALI_INV_ID` sentinel. -/
def write_hierarchy_entry (ext : Ext) (st : HState) (rec : List Entry)
    (pathAttrIds : List Nat) (column : String) : String × HState :=
  let path := buildPath ext pathAttrIds rec
  let r := get_id st path column
  (match r.1 with
   | some i => toString i
   | none => "null", r.2)

/-- Modelled from the spec's words, for refinement comparison only: "reverse
each chain to root-first order, concatenate chains across entries in record
order". -/
def specPath (ext : Ext) (pathAttrIds : List Nat) (rec : List Entry) : List String :=
  (rec.map (fun e => (walkUp ext pathAttrIds ext.length e.node).reverse)).flatten

theorem foldl_append_eq_flatten {α β : Type} (f : α → List β) (l : List α) (acc : List β) :
    l.foldl (fun a e => a ++ f e) acc = acc ++ (l.map f).flatten := by
  induction l generalizing acc with
  | nil => simp
  | cons x xs ih => simp [ih]

/-- **C2 (amended).**  The interned path equals the whole concatenated
leaf-to-root chain vector reversed once — equivalently, the per-entry chains
reversed to root-first order but concatenated in *reverse* record order; the
cell emitted is the interned id of that path (or null). -/
theorem write_hierarchy_entry_spec (ext : Ext) (st : HState) (rec : List Entry)
    (pathAttrIds : List Nat) (column : String) :
    buildPath ext pathAttrIds rec =
      (rec.reverse.map
        (fun e => (walkUp ext pathAttrIds ext.length e.node).reverse)).flatten ∧
    write_hierarchy_entry ext st rec pathAttrIds column =
      (match (get_id st (buildPath ext pathAttrIds rec) column).1 with
       | some i => toString i
       | none => "null", (get_id st (buildPath ext pathAttrIds rec) column).2) := by
  constructor
  · unfold buildPath
    rw [foldl_append_eq_flatten, List.nil_append, List.reverse_flatten]
    rw [List.map_map, ← List.map_reverse]
    rfl
  · rfl

/-- **C2 (counterexample to the claim as stated).**  With two reference
entries, the claimed path (per-entry chains reversed, concatenated in record
order) differs from what the code builds (one global reversal): chains
`b→a` and `c` yield `["c","a","b"]`, not `["a","b","c"]`. -/
theorem write_hierarchy_entry_order_counterexample :
    buildPath [⟨1, "a", none⟩, ⟨1, "b", some 0⟩, ⟨1, "c", none⟩] [1]
        [⟨0, "", some 1⟩, ⟨0, "", some 2⟩] = ["c", "a", "b"] ∧
    specPath [⟨1, "a", none⟩, ⟨1, "b", some 0⟩, ⟨1, "c", none⟩] [1]
        [⟨0, "", some 1⟩, ⟨0, "", some 2⟩] = ["a", "b", "c"] ∧
    buildPath [⟨1, "a", none⟩, ⟨1, "b", some 0⟩, ⟨1, "c", none⟩] [1]
        [⟨0, "", some 1⟩, ⟨0, "", some 2⟩] ≠
      specPath [⟨1, "a", none⟩, ⟨1, "b", some 0⟩, ⟨1, "c", none⟩] [1]
        [⟨0, "", some 1⟩, ⟨0, "", some 2⟩] := by
  refine ⟨rfl, rfl, ?_⟩
  decide

/-- **C8.**  `resolve` on an empty path returns the `CALI_INV_ID` sentinel
(`none`), never any real node id (in particular not id 0), leaves the arena
untouched, and the path-column cell for a record whose built path is empty is
emitted as `null`. -/
theorem get_id_empty_path (st : HState) (c : String) (ext : Ext)
    (pathAttrIds : List Nat) (rec : List Entry)
    (h : buildPath ext pathAttrIds rec = []) :
    get_id st [] c = (none, st) ∧
    (∀ i : Nat, (get_id st [] c).1 ≠ some i) ∧
    write_hierarchy_entry ext st rec pathAttrIds c = ("null", st) := by
  refine ⟨rfl, ?_, ?_⟩
  · intro i hi
    rw [show get_id st [] c = (none, st) from rfl] at hi
    cases hi
  · unfold write_hierarchy_entry
    rw [h]
    rfl

/-- Witness for C8: the empty record yields an empty path and a `null` cell. -/
theorem get_id_empty_path_witness :
    buildPath [] [] [] = [] ∧ write_hierarchy_entry [] [] [] [] "path" = ("null", []) := by
  refine ⟨rfl, ?_⟩
  exact (get_id_empty_path [] "path" [] [] [] rfl).2.2

/-! ## Immediate-value cells (`write_immediate_entry`)

`util::write_esc_string` is not among the provided sources. -/

def hexDigit (n : Nat) : Char :=
  if n < 10 then Char.ofNat (48 + n) else Char.ofNat (87 + n)

def hex4 (n : Nat) : String :=
  String.mk [hexDigit (n / 4096 % 16), hexDigit (n / 256 % 16),
    hexDigit (n / 16 % 16), hexDigit (n % 16)]

/-- Modelled from the spec: `util::write_esc_string` (declared in
`format_util.h`, not part of the provided sources) emits a string
"escape-safe for embedded quote/control characters": quotes and backslashes
are backslash-escaped and control characters become unicode escapes. -/
def escChar (c : Char) : String :=
  if c = '"' ∨ c = '\\' then String.mk ['\\', c]
  else if c.toNat < 32 then "\\u" ++ hex4 c.toNat
  else String.mk [c]

/-- Modelled from the spec: escape every character of the payload. -/
def escString (s : String) : String :=
  String.join (s.data.map escChar)

/-- `JsonSplitFormatterImpl::write_immediate_entry`: scan the record for the
first entry matching the column's attribute; emit its value, quoted (and
escaped) unless the attribute's declared type is numeric; emit `null` when no
entry matches. -/
def write_immediate_entry (rec : List Entry) (attr : Attribute) : String :=
  let quote : Bool :=
    !(attr.typ == CaliType.int || attr.typ == CaliType.uint || attr.typ == CaliType.double)
  match rec.find? (fun e => e.attr == attr.id) with
  | some e => if quote then "\"" ++ escString e.value ++ "\"" else e.value
  | none => "null"

theorem find?_first {p : Entry → Bool} :
    ∀ (pre post : List Entry) (e : Entry), p e = true → (∀ x ∈ pre, p x = false) →
      (pre ++ e :: post).find? p = some e := by
  intro pre
  induction pre with
  | nil =>
    intro post e hp _
    simp [List.find?_cons, hp]
  | cons x xs ih =>
    intro post e hp hall
    have hx : p x = false := hall x (by simp)
    rw [List.cons_append, List.find?_cons, hx]
    exact ih post e hp (fun y hy => hall y (by simp [hy]))

/-- **C7.**  A value-column cell: when no entry of the record carries the
column's attribute the cell is the null marker; otherwise the cell is the
first matching entry's textual value — bare for numeric declared types
(int, unsigned int, double), quoted and escaped for every other type. -/
theorem write_immediate_entry_spec (rec : List Entry) (attr : Attribute) :
    ((∀ e ∈ rec, e.attr ≠ attr.id) → write_immediate_entry rec attr = "null") ∧
    (∀ (pre post : List Entry) (e : Entry), rec = pre ++ e :: post → e.attr = attr.id →
      (∀ x ∈ pre, x.attr ≠ attr.id) →
      write_immediate_entry rec attr =
        if attr.typ = CaliType.int ∨ attr.typ = CaliType.uint ∨ attr.typ = CaliType.double
        then e.value
        else "\"" ++ escString e.value ++ "\"") := by
  constructor
  · intro hnone
    have hfind : rec.find? (fun e => e.attr == attr.id) = none := by
      rw [List.find?_eq_none]
      intro x hx
      simpa using hnone x hx
    unfold write_immediate_entry
    rw [hfind]
  · intro pre post e hrec he hpre
    have hfind : rec.find? (fun x => x.attr == attr.id) = some e := by
      rw [hrec]
      exact find?_first pre post e (by simpa using he)
        (fun x hx => by simpa using hpre x hx)
    unfold write_immediate_entry
    rw [hfind]
    by_cases hnum : attr.typ = CaliType.int ∨ attr.typ = CaliType.uint ∨
        attr.typ = CaliType.double
    · rw [if_pos hnum]
      have : (!(attr.typ == CaliType.int || attr.typ == CaliType.uint ||
          attr.typ == CaliType.double)) = false := by
        rcases hnum with h | h | h <;> simp [h]
      rw [this]
      simp
    · rw [if_neg hnum]
      push_neg at hnum
      have : (!(attr.typ == CaliType.int || attr.typ == CaliType.uint ||
          attr.typ == CaliType.double)) = true := by
        simp only [Bool.not_eq_true', Bool.or_eq_false_iff, beq_eq_false_iff_ne]
        exact ⟨⟨hnum.1, hnum.2.1⟩, hnum.2.2⟩
      rw [this]
      simp

/-- Witness for C7 (the spec's Scenario D): a double-typed value is emitted
bare, a string-typed value with an embedded quote is emitted quoted and
escaped, and a record without the attribute yields null. -/
theorem write_immediate_entry_spec_witness :
    write_immediate_entry [⟨1, "42.5", none⟩]
      ⟨1, "time", CaliType.double, false, false, false, true⟩ = "42.5" ∧
    write_immediate_entry [⟨2, "a\"b", none⟩]
      ⟨2, "note", CaliType.string, false, false, false, true⟩ =
        "\"" ++ escString "a\"b" ++ "\"" ∧
    write_immediate_entry [⟨1, "42.5", none⟩]
      ⟨3, "other", CaliType.int, false, false, false, true⟩ = "null" := by
  refine ⟨?_, ?_, ?_⟩
  · have h := (write_immediate_entry_spec [⟨1, "42.5", none⟩]
      ⟨1, "time", CaliType.double, false, false, false, true⟩).2
      [] [] ⟨1, "42.5", none⟩ rfl rfl (by simp)
    rw [h]
    simp
  · have h := (write_immediate_entry_spec [⟨2, "a\"b", none⟩]
      ⟨2, "note", CaliType.string, false, false, false, true⟩).2
      [] [] ⟨2, "a\"b", none⟩ rfl rfl (by simp)
    rw [h]
    simp
  · have h := (write_immediate_entry_spec [⟨1, "42.5", none⟩]
      ⟨3, "other", CaliType.int, false, false, false, true⟩).1 (by decide)
    exact h

/-! ## Query configuration (`configure`) -/

/-- `QuerySpec::AttributeSelection`: the enumerated selection mode. -/
inductive AttributeSelectionMode where
  | Default
  | All
  | None
  | List
deriving DecidableEq, Repr

/-- One selection descriptor of a `QuerySpec` (used for both `select` and
`groupby`): mode, explicit name list, and the use-path flag. -/
structure AttributeSelection where
  selection : AttributeSelectionMode
  list : List String
  use_path : Bool
deriving DecidableEq, Repr

/-- An aggregate operation.  Modelled from the spec: the aggregation engine is
external and "supplies only the display name of an aggregate operation's
result attribute"; an operation is its kind (e.g. `sum`) applied to an
argument attribute name. -/
structure AggregationOp where
  kind : String
  arg : String
deriving DecidableEq, Repr

/-- Modelled from the spec: `Aggregator::get_aggregation_attribute_name` (the
aggregation engine is not part of the provided sources) derives the result
attribute's display name; Scenario C fixes `sum_of("time.duration") ↦
"sum#time.duration"`. -/
def get_aggregation_attribute_name (op : AggregationOp) : String :=
  op.kind ++ "#" ++ op.arg

structure AggregationSpec where
  list : List AggregationOp
deriving DecidableEq, Repr

/-- The query descriptor fields consumed by `configure`. -/
structure QuerySpec where
  select : AttributeSelection
  groupby : AttributeSelection
  aggregate : AggregationSpec
  aliases : List (String × String)
deriving DecidableEq, Repr

/-- The selection policy produced by `configure`. -/
structure FormatterConfig where
  m_select_all : Bool
  m_select_path : Bool
  m_attr_names : List String
  m_aliases : List (String × String)
deriving DecidableEq, Repr

/-- `JsonSplitFormatterImpl::configure`: resolve the query descriptor into the
selection policy. -/
def configure (spec : QuerySpec) : FormatterConfig :=
  let base : FormatterConfig :=
    { m_select_all := false
      m_select_path := spec.select.use_path
      m_attr_names := []
      m_aliases := spec.aliases }
  match spec.select.selection with
  | AttributeSelectionMode.Default | AttributeSelectionMode.All =>
    -- Explicitly use aggregation key and ops if there is a GROUPBY
    if spec.groupby.selection = AttributeSelectionMode.List then
      { base with
        m_attr_names :=
          spec.groupby.list ++ spec.aggregate.list.map get_aggregation_attribute_name
        m_select_path := spec.groupby.use_path }
    else
      { base with m_select_all := true }
  | AttributeSelectionMode.None => base
  | AttributeSelectionMode.List => { base with m_attr_names := spec.select.list }

/-- **C3 (amended).**  `configure`, characterized per selection mode.  The
group-by branch is taken exactly when the group-by descriptor's *mode* is
`List` — regardless of whether the group-by name list is empty — and then the
explicit names are the group-by names followed by the derived aggregate names,
select-all is false and use-path comes from the group-by descriptor; for
default/all without a `List`-mode group-by, select-all becomes true; mode
`None` yields the empty selection; mode `List` yields exactly the explicit
names. -/
theorem configure_spec (spec : QuerySpec) :
    ((spec.select.selection = AttributeSelectionMode.Default ∨
      spec.select.selection = AttributeSelectionMode.All) →
      ((spec.groupby.selection = AttributeSelectionMode.List →
        configure spec =
          ⟨false, spec.groupby.use_path,
            spec.groupby.list ++ spec.aggregate.list.map get_aggregation_attribute_name,
            spec.aliases⟩) ∧
      (spec.groupby.selection ≠ AttributeSelectionMode.List →
        configure spec = ⟨true, spec.select.use_path, [], spec.aliases⟩))) ∧
    (spec.select.selection = AttributeSelectionMode.None →
      configure spec = ⟨false, spec.select.use_path, [], spec.aliases⟩) ∧
    (spec.select.selection = AttributeSelectionMode.List →
      configure spec = ⟨false, spec.select.use_path, spec.select.list, spec.aliases⟩) := by
  refine ⟨?_, ?_, ?_⟩
  · rintro (hsel | hsel) <;>
      refine ⟨fun hgb => ?_, fun hgb => ?_⟩ <;>
        simp [configure, hsel, hgb]
  · intro hsel
    simp [configure, hsel]
  · intro hsel
    simp [configure, hsel]

/-- Witness for C3 (amended): the spec's Scenario C — mode default, group-by
`["region"]`, aggregate `sum_of("time.duration")` resolves to explicit names
`["region", "sum#time.duration"]` with select-all false. -/
theorem configure_spec_witness :
    configure ⟨⟨AttributeSelectionMode.Default, [], false⟩,
        ⟨AttributeSelectionMode.List, ["region"], true⟩,
        ⟨[⟨"sum", "time.duration"⟩]⟩, []⟩ =
      ⟨false, true, ["region", "sum#time.duration"], []⟩ := by
  have h := ((configure_spec ⟨⟨AttributeSelectionMode.Default, [], false⟩,
      ⟨AttributeSelectionMode.List, ["region"], true⟩,
      ⟨[⟨"sum", "time.duration"⟩]⟩, []⟩).1 (Or.inl rfl)).1 rfl
  rw [h]
  rfl

/-- **C3 (counterexample to the claim as stated).**  The claim's trigger is "a
non-empty group-by list exists", but the code branches on the group-by *mode*
being `List`: with mode default, an *empty* `List`-mode group-by and one
aggregate operation, no non-empty group-by list exists, yet `configure` does
not set select-all (the claim demands select-all = true here). -/
theorem configure_groupby_mode_counterexample :
    (configure ⟨⟨AttributeSelectionMode.Default, [], false⟩,
        ⟨AttributeSelectionMode.List, [], true⟩,
        ⟨[⟨"sum", "time.duration"⟩]⟩, []⟩).m_select_all ≠ true ∧
    (configure ⟨⟨AttributeSelectionMode.Default, [], false⟩,
        ⟨AttributeSelectionMode.List, [], true⟩,
        ⟨[⟨"sum", "time.duration"⟩]⟩, []⟩).m_attr_names = ["sum#time.duration"] := by
  constructor
  · decide
  · rfl

/-! ## The column model (`init_columns`) -/

/-- An output column: its title, its attribute set (a single attribute for
value columns, all nested attributes for the path column), and its
classification. -/
structure Column where
  title : String
  attributes : List Attribute
  is_hierarchy : Bool
deriving DecidableEq, Repr

def Column.make_column (title : String) (a : Attribute) : Column :=
  { title := title, attributes := [a], is_hierarchy := !a.store_as_value }

/-- Alias lookup (`m_aliases.find(name)`), falling back to the raw name. -/
def find_alias (aliases : List (String × String)) (name : String) : String :=
  match aliases.find? (fun p => p.1 == name) with
  | some p => p.2
  | none => name

/-- The filtering phase of `init_columns` (`std::remove_if` + `erase`, which
keeps the surviving attributes in directory iteration order): with select-all,
drop hidden and global attributes; otherwise keep an attribute iff use-path is
set and it is nested, or its name was explicitly selected. -/
def selected_attributes (fs : FormatterConfig) (db_attrs : List Attribute) :
    List Attribute :=
  if fs.m_select_all then
    db_attrs.filter (fun a => !(a.is_hidden || a.is_global))
  else
    db_attrs.filter
      (fun a => (fs.m_select_path && a.is_nested) || fs.m_attr_names.contains a.name)

/-- `JsonSplitFormatterImpl::init_columns`: one pass over the kept attributes —
nested attributes are collected into the single `"path"` column, every other
attribute becomes a value column titled by its alias (or raw name); the path
column is appended last when non-empty. -/
def init_columns (fs : FormatterConfig) (db_attrs : List Attribute) : List Column :=
  let attrs := selected_attributes fs db_attrs
  let r := attrs.foldl
    (fun (acc : List Column × List Attribute) a =>
      if a.is_nested then (acc.1, acc.2 ++ [a])
      else (acc.1 ++ [Column.make_column (find_alias fs.m_aliases a.name) a], acc.2))
    ([], [])
  r.1 ++
    (if r.2.isEmpty then []
     else [{ title := "path", attributes := r.2, is_hierarchy := true }])

theorem init_columns_fold (fs : FormatterConfig) :
    ∀ (attrs : List Attribute) (accC : List Column) (accP : List Attribute),
      attrs.foldl
        (fun (acc : List Column × List Attribute) a =>
          if a.is_nested then (acc.1, acc.2 ++ [a])
          else (acc.1 ++ [Column.make_column (find_alias fs.m_aliases a.name) a], acc.2))
        (accC, accP) =
      (accC ++ (attrs.filter (fun a => !a.is_nested)).map
          (fun a => Column.make_column (find_alias fs.m_aliases a.name) a),
        accP ++ attrs.filter (fun a => a.is_nested)) := by
  intro attrs
  induction attrs with
  | nil =>
    intro accC accP
    simp
  | cons a as ih =>
    intro accC accP
    cases ha : a.is_nested with
    | false => simp [List.foldl_cons, ha, ih, List.filter_cons]
    | true => simp [List.foldl_cons, ha, ih, List.filter_cons]

/-! ## Record buffering and the flush replay loop -/

/-- `JsonSplitFormatterImpl::process_record`: append a copy of the record to
the owned buffer (`m_records.push_back`). -/
def process_record (buf : List (List Entry)) (rec : List Entry) : List (List Entry) :=
  buf ++ [rec]

/-- One cell of an output row: the interned path id for the hierarchy column,
the immediate value otherwise.  Value columns built by `make_column` always
carry exactly one attribute (`c.attributes.front()`). -/
def render_cell (ext : Ext) (c : Column) (st : HState) (rec : List Entry) :
    String × HState :=
  if c.is_hierarchy then
    write_hierarchy_entry ext st rec (c.attributes.map (fun a => a.id)) c.title
  else
    match c.attributes with
    | a :: _ => (write_immediate_entry rec a, st)
    | [] => ("null", st)

/-- One output row of `flush`: the cells of one record, over the columns in
column-model order, threading the interner state. -/
def render_row (ext : Ext) (cols : List Column) (rec : List Entry) (st : HState) :
    List String × HState :=
  emitFold (fun s c => render_cell ext c s rec) cols ([], st)

/-- The `flush` data loop: replay the buffered records in insertion order, one
row per record. -/
def render_rows (ext : Ext) (cols : List Column) (recs : List (List Entry))
    (st : HState) : List (List String) × HState :=
  emitFold (fun s r => render_row ext cols r s) recs ([], st)

/-- The `"columns"` array emitted by `write_metadata`: the titles, in
column-model order. -/
def column_titles (cols : List Column) : List String :=
  cols.map (fun c => c.title)

/-- `JsonSplitFormatterImpl::flush` (data part): build the column model once,
render all buffered rows, and emit the column titles — rows and titles share
the single column order. -/
def flush (ext : Ext) (fs : FormatterConfig) (db_attrs : List Attribute)
    (recs : List (List Entry)) : List (List String) × List String × HState :=
  let columns := init_columns fs db_attrs
  let rr := render_rows ext columns recs []
  (rr.1, column_titles columns, rr.2)

/-- **C4.**  The column model consists of the value columns first — exactly the
kept non-nested attributes in directory iteration order, each titled by alias
or raw name — followed by the single path column iff its attribute set (the
kept nested attributes, in order) is non-empty; and the flush document reuses
this very order: the title array is the columns' titles in order, and each
row's `j`-th cell is produced by the `j`-th column. -/
theorem init_columns_order (fs : FormatterConfig) (db_attrs : List Attribute)
    (ext : Ext) (recs : List (List Entry)) :
    init_columns fs db_attrs =
      ((selected_attributes fs db_attrs).filter (fun a => !a.is_nested)).map
        (fun a => Column.make_column (find_alias fs.m_aliases a.name) a) ++
      (if ((selected_attributes fs db_attrs).filter (fun a => a.is_nested)).isEmpty then []
       else [{ title := "path",
               attributes := (selected_attributes fs db_attrs).filter (fun a => a.is_nested),
               is_hierarchy := true }]) ∧
    (flush ext fs db_attrs recs).2.1 = column_titles (init_columns fs db_attrs) ∧
    (∀ (rec : List Entry) (st : HState) (j : Nat)
      (hj : j < (init_columns fs db_attrs).length),
      (render_row ext (init_columns fs db_attrs) rec st).1[j]? =
        some ((render_cell ext ((init_columns fs db_attrs).get ⟨j, hj⟩)
          ((render_row ext ((init_columns fs db_attrs).take j) rec st).2) rec).1)) := by
  refine ⟨?_, rfl, ?_⟩
  · simp only [init_columns]
    rw [init_columns_fold fs (selected_attributes fs db_attrs) [] []]
    simp
  · intro rec st j hj
    unfold render_row
    exact emitFold_getElem (fun s c => render_cell ext c s rec)
      (init_columns fs db_attrs) st j hj

/-- Witness for C4: a two-attribute directory (one value, one nested) yields
the value column first and the path column last, reproduced by the titles. -/
theorem init_columns_order_witness :
    init_columns ⟨true, false, [], []⟩
        [⟨13, "time", CaliType.double, false, false, false, true⟩,
         ⟨14, "region", CaliType.string, false, false, true, false⟩] =
      [⟨"time", [⟨13, "time", CaliType.double, false, false, false, true⟩], false⟩,
       ⟨"path", [⟨14, "region", CaliType.string, false, false, true, false⟩], true⟩] ∧
    (flush [] ⟨true, false, [], []⟩
        [⟨13, "time", CaliType.double, false, false, false, true⟩,
         ⟨14, "region", CaliType.string, false, false, true, false⟩] []).2.1 =
      ["time", "path"] ∧
    (render_row [] (init_columns ⟨true, false, [], []⟩
        [⟨13, "time", CaliType.double, false, false, false, true⟩,
         ⟨14, "region", CaliType.string, false, false, true, false⟩]) [] []).1[0]? =
      some "null" := by
  refine ⟨?_, ?_, ?_⟩
  · have h := (init_columns_order ⟨true, false, [], []⟩
      [⟨13, "time", CaliType.double, false, false, false, true⟩,
       ⟨14, "region", CaliType.string, false, false, true, false⟩] [] []).1
    rw [h]
    rfl
  · have h := (init_columns_order ⟨true, false, [], []⟩
      [⟨13, "time", CaliType.double, false, false, false, true⟩,
       ⟨14, "region", CaliType.string, false, false, true, false⟩] [] []).2.1
    rw [h]
    rfl
  · have h := (init_columns_order ⟨true, false, [], []⟩
      [⟨13, "time", CaliType.double, false, false, false, true⟩,
       ⟨14, "region", CaliType.string, false, false, true, false⟩] [] []).2.2
      [] [] 0 (by decide)
    rw [h]
    rfl

/-- **C9.**  Row conservation and order: the buffer after a sequence of
`process_record` calls is exactly the call sequence; `flush` renders one row
per buffered record, and the `k`-th row is rendered from the `k`-th ingested
record (with the interner state threaded through the preceding rows). -/
theorem flush_row_conservation (ext : Ext) (cols : List Column)
    (calls : List (List Entry)) (st : HState) :
    calls.foldl process_record [] = calls ∧
    (render_rows ext cols (calls.foldl process_record []) st).1.length = calls.length ∧
    (∀ (k : Nat) (hk : k < calls.length),
      (render_rows ext cols calls st).1[k]? =
        some ((render_row ext cols (calls.get ⟨k, hk⟩)
          ((render_rows ext cols (calls.take k) st).2)).1)) := by
  have hbuf : ∀ (l : List (List Entry)) (acc : List (List Entry)),
      l.foldl process_record acc = acc ++ l := by
    intro l
    induction l with
    | nil => intro acc; simp
    | cons x xs ih => intro acc; simp [List.foldl_cons, process_record, ih]
  refine ⟨by simpa using hbuf calls [], ?_, ?_⟩
  · rw [show calls.foldl process_record [] = calls from by simpa using hbuf calls []]
    exact emitFold_length (fun s r => render_row ext cols r s) calls st
  · intro k hk
    exact emitFold_getElem (fun s r => render_row ext cols r s) calls st k hk

/-- Witness for C9: two ingested records yield exactly two rows, in order. -/
theorem flush_row_conservation_witness :
    ([[], [⟨1, "x", none⟩]] : List (List Entry)).foldl process_record [] =
      [[], [⟨1, "x", none⟩]] ∧
    (render_rows [] [] ([[], [⟨1, "x", none⟩]] : List (List Entry)) []).1.length = 2 ∧
    (render_rows [] [] ([[], [⟨1, "x", none⟩]] : List (List Entry)) []).1[0]? =
      some ((render_row [] [] ([] : List Entry)
        ((render_rows [] [] ([] : List (List Entry)) []).2)).1) := by
  refine ⟨(flush_row_conservation [] [] [[], [⟨1, "x", none⟩]] []).1, ?_, ?_⟩
  · have h := (flush_row_conservation [] [] [[], [⟨1, "x", none⟩]] []).2.1
    rw [(flush_row_conservation [] [] [[], [⟨1, "x", none⟩]] []).1] at h
    rw [h]
    rfl
  · exact (flush_row_conservation [] [] [[], [⟨1, "x", none⟩]] []).2.2 0 (by decide)

/-! ## Global attributes (`write_globals`) -/

/-- `std::map` entry assignment `global_vals[a] = v` (with `operator[]`
defaulting absent keys to the empty string, modelled by the map's default). -/
def update_val (m : Nat → String) (a : Nat) (v : String) : Nat → String :=
  fun x => if x = a then v else m x

/-- The reference-entry loop of `write_globals`: walk the entry's node chain
leaf-to-root; at each node prepend its value to the attribute's accumulated
slash-joined chain (`s.append("/").append(existing)` when the existing value
is non-empty). -/
def walk_global (ext : Ext) : Nat → Option Nat → (Nat → String) → Nat → String
  | _, none, m => m
  | 0, some _, m => m
  | fuel + 1, some i, m =>
    match ext[i]? with
    | none => m
    | some n =>
      walk_global ext fuel n.parent
        (update_val m n.attr
          (if 0 < (m n.attr).length then n.data ++ "/" ++ m n.attr else n.data))

/-- `JsonSplitFormatterImpl::write_globals` (value map): walk every global
entry once — reference entries expand their ancestor chain per attribute,
immediate entries assign their value directly. -/
def write_globals_vals (ext : Ext) (globals : List Entry) : Nat → String :=
  globals.foldl
    (fun m e =>
      match e.node with
      | some i => walk_global ext ext.length (some i) m
      | none => update_val m e.attr e.value)
    (fun _ => "")

/-- The emission order of `write_metadata`: the `columns` array, the
`column_metadata` array, the `nodes` dictionary, then the merged global
name/value pairs appended last by `write_globals`. -/
inductive DocPart where
  | columns (titles : List String)
  | column_metadata
  | nodes (dict : List (String × String × Option Nat))
  | global (name : String) (value : String)
deriving DecidableEq, Repr

def write_metadata_doc (titles : List String) (dict : List (String × String × Option Nat))
    (globalPairs : List (String × String)) : List DocPart :=
  [DocPart.columns titles, DocPart.column_metadata, DocPart.nodes dict] ++
    globalPairs.map (fun p => DocPart.global p.1 p.2)

theorem string_length_pos {s : String} (h : s ≠ "") : 0 < s.length := by
  cases s with
  | mk data =>
    cases data with
    | nil => exact absurd (by decide) h
    | cons c cs => simp [String.length]

/-- The leaf-to-root sequence of values carried by nodes of attribute `a`
along one reference entry's ancestor chain — the order in which the inner loop
of `write_globals` visits the nodes that touch `a`. -/
def chain_values (ext : Ext) (a : Nat) : Nat → Option Nat → List String
  | _, none => []
  | 0, some _ => []
  | fuel + 1, some i =>
    match ext[i]? with
    | none => []
    | some n =>
      (if n.attr = a then [n.data] else []) ++ chain_values ext a fuel n.parent

/-- Merging one chain's values (leaf-to-root) into an accumulated value: each
value is prepended, slash-separated when the accumulator is non-empty. -/
def merge_chain (vs : List String) (v : String) : String :=
  vs.foldl (fun acc x => if 0 < acc.length then x ++ "/" ++ acc else x) v

/-- Joining a list of strings with slashes. -/
def slash_join : List String → String
  | [] => ""
  | [x] => x
  | x :: y :: rest => x ++ "/" ++ slash_join (y :: rest)

theorem merge_chain_cons (x : String) (vs : List String) (v : String) :
    merge_chain (x :: vs) v =
      merge_chain vs (if 0 < v.length then x ++ "/" ++ v else x) := by
  simp [merge_chain]

/-- Projection of one chain walk to a single attribute: updates at other
attributes do not interfere, and the walk folds the attribute's chain values
into the accumulated value. -/
theorem walk_global_at (ext : Ext) (a : Nat) :
    ∀ (fuel : Nat) (pos : Option Nat) (m : Nat → String),
      walk_global ext fuel pos m a = merge_chain (chain_values ext a fuel pos) (m a) := by
  intro fuel
  induction fuel with
  | zero =>
    intro pos m
    cases pos <;> simp [walk_global, chain_values, merge_chain]
  | succ fuel ih =>
    intro pos m
    cases pos with
    | none => simp [walk_global, chain_values, merge_chain]
    | some i =>
      cases hn : ext[i]? with
      | none => simp [walk_global, chain_values, hn, merge_chain]
      | some n =>
        simp only [walk_global, chain_values, hn]
        rw [ih n.parent (update_val m n.attr
          (if 0 < (m n.attr).length then n.data ++ "/" ++ m n.attr else n.data))]
        by_cases ha : n.attr = a
        · rw [if_pos ha, List.singleton_append, merge_chain_cons]
          congr 1
          subst ha
          simp [update_val]
        · rw [if_neg ha, List.nil_append]
          congr 1
          rw [update_val]
          exact if_neg (fun h => ha h.symm)

/-- Projection of the whole `write_globals` fold to a single attribute. -/
theorem write_globals_fold_at (ext : Ext) (a : Nat) :
    ∀ (gs : List Entry) (m : Nat → String),
      (gs.foldl
        (fun m e =>
          match e.node with
          | some i => walk_global ext ext.length (some i) m
          | none => update_val m e.attr e.value) m) a =
      gs.foldl
        (fun v e =>
          match e.node with
          | some i => merge_chain (chain_values ext a ext.length (some i)) v
          | none => if a = e.attr then e.value else v) (m a) := by
  intro gs
  induction gs with
  | nil =>
    intro m
    rfl
  | cons e es ih =>
    intro m
    rw [List.foldl_cons, List.foldl_cons, ih]
    congr 1
    cases he : e.node with
    | some i =>
      simp only [he]
      exact walk_global_at ext a ext.length (some i) m
    | none =>
      simp only [he]
      rfl

theorem string_ne_empty_of_length_pos {s : String} (h : 0 < s.length) : s ≠ "" := by
  intro he
  rw [he] at h
  exact absurd h (by decide)

theorem slash_join_append_pair :
    ∀ (L : List String) (p q : String),
      slash_join (L ++ [p ++ "/" ++ q]) = slash_join (L ++ [p, q]) := by
  have hcons : ∀ (y : String) (rest : List String), rest ≠ [] →
      slash_join (y :: rest) = y ++ "/" ++ slash_join rest := by
    intro y rest hr
    cases rest with
    | nil => exact absurd rfl hr
    | cons a as => rfl
  intro L
  induction L with
  | nil =>
    intro p q
    simp [slash_join]
  | cons y L ih =>
    intro p q
    rw [List.cons_append, List.cons_append, hcons y _ (by simp), hcons y _ (by simp), ih]

/-- `merge_chain` is an explicit slash-join: the chain values in root-first
order, followed by the previously accumulated value (dropped when empty). -/
theorem merge_chain_slash_join :
    ∀ (vs : List String) (v : String), (∀ x ∈ vs, x ≠ "") →
      merge_chain vs v = slash_join (vs.reverse ++ if v = "" then [] else [v]) := by
  intro vs
  induction vs with
  | nil =>
    intro v _
    by_cases hv : v = "" <;> simp [merge_chain, slash_join, hv]
  | cons x xs ih =>
    intro v hall
    have hx : x ≠ "" := hall x (by simp)
    have hxs : ∀ y ∈ xs, y ≠ "" := fun y hy => hall y (by simp [hy])
    by_cases hv : v = ""
    · have hvlen : ¬ 0 < v.length := by
        rw [hv]
        decide
      rw [merge_chain_cons, if_neg hvlen, ih x hxs, if_neg hx, if_pos hv]
      simp
    · have hvlen : 0 < v.length := string_length_pos hv
      rw [merge_chain_cons, if_pos hvlen]
      have hne : x ++ "/" ++ v ≠ "" := by
        apply string_ne_empty_of_length_pos
        rw [String.length_append, String.length_append]
        have h1 : ("/" : String).length = 1 := rfl
        omega
      rw [ih (x ++ "/" ++ v) hxs, if_neg hne, if_neg hv]
      rw [List.reverse_cons, List.append_assoc]
      exact slash_join_append_pair xs.reverse x v

/-- **C6 (amended).**  Global merge semantics, for every external tree, every
global entry list and every attribute id: the emitted value of attribute `a`
is the left fold over the global entries in declaration order where an
immediate entry with attribute `a` assigns its value as-is, and a reference
entry merges its chain's `a`-values into the accumulated value — so each later
entry's chain is *prepended* (chains concatenate in reverse declaration
order).  The merge of one chain is the explicit slash-join of its values in
root-first order followed by the previously accumulated value.  Merged
globals appear as name/value pairs after every other part of the document. -/
theorem write_globals_merge (ext : Ext) (globals : List Entry) (a : Nat) :
    write_globals_vals ext globals a =
      globals.foldl
        (fun v e =>
          match e.node with
          | some i => merge_chain (chain_values ext a ext.length (some i)) v
          | none => if a = e.attr then e.value else v)
        "" ∧
    (∀ (vs : List String) (v : String), (∀ x ∈ vs, x ≠ "") →
      merge_chain vs v = slash_join (vs.reverse ++ if v = "" then [] else [v])) ∧
    (∀ (titles : List String) (dict : List (String × String × Option Nat))
      (globalPairs : List (String × String)),
      ∃ body, write_metadata_doc titles dict globalPairs =
          body ++ globalPairs.map (fun p => DocPart.global p.1 p.2) ∧
        ∀ part ∈ body, ∀ (nm vl : String), part ≠ DocPart.global nm vl) := by
  refine ⟨?_, merge_chain_slash_join, ?_⟩
  · exact write_globals_fold_at ext a globals (fun _ => "")
  · intro titles dict globalPairs
    refine ⟨[DocPart.columns titles, DocPart.column_metadata, DocPart.nodes dict], rfl, ?_⟩
    intro part hp nm vl hcontra
    simp only [List.mem_cons, List.not_mem_nil, or_false] at hp
    rcases hp with rfl | rfl | rfl <;> cases hcontra

/-- Witness for C6 (amended): two single-node reference chains on attribute 5
with values `x` then `y` fold to `y/x`, and a two-value chain merge is the
explicit root-first slash-join. -/
theorem write_globals_merge_witness :
    write_globals_vals [⟨5, "x", none⟩, ⟨5, "y", none⟩]
        [⟨5, "", some 0⟩, ⟨5, "", some 1⟩] 5 = "y/x" ∧
    merge_chain ["c", "p"] "w" = "p/c/w" := by
  have h := write_globals_merge [⟨5, "x", none⟩, ⟨5, "y", none⟩]
    [⟨5, "", some 0⟩, ⟨5, "", some 1⟩] 5
  constructor
  · rw [h.1]
    rfl
  · rw [h.2.1 ["c", "p"] "w" (by decide)]
    rfl

/-- **C6 (counterexample to the claim as stated).**  Two global reference
entries sharing attribute id 5, declared with values `x` then `y`, merge to
`y/x` — the later entry's chain is prepended — not the claimed declaration
order `x/y`. -/
theorem write_globals_order_counterexample :
    write_globals_vals [⟨5, "x", none⟩, ⟨5, "y", none⟩]
        [⟨5, "", some 0⟩, ⟨5, "", some 1⟩] 5 = "y/x" ∧
    ("y/x" : String) ≠ "x/y" := by
  constructor
  · rfl
  · decide

end Caliper
